import Mathlib

/-!
# Verification of the Daily Dispatch RSS aggregation pipeline

A shallow embedding, in Lean 4, of the feed-aggregation core of the
daily-dispatch-quiz server (`server.js`): the feed locator, the redirect-following
transport, the regex-based tolerant feed parser, the recency filter, the
deduplicate-and-truncate aggregation engine, and the file-backed cache store.

JavaScript strings are modelled as `List Char`.  The regular-expression matching
used by the source (`String.prototype.match`, `RegExp.exec` with the `g` flag) is
embedded as explicit leftmost-match scanners: at each position, attempt the
pattern; on failure move one character to the right, exactly as the backtracking
engine does for these particular patterns (none of which can succeed in more
than one way at a fixed start position, because `[^>]*`, `[^"]+` and the lazy
`[\s\S]*?` bounded by a literal are all deterministic).
-/

namespace DailyDispatch

/-- Lowercasing of a character list; models the `i` flag of the source regexes
(`Char.toLower` agrees with JS case folding on the ASCII tag names involved). -/
def lc (cs : List Char) : List Char := cs.map Char.toLower

/-- The JS `\s` class, restricted to the ASCII whitespace characters
(space, tab, newline, carriage return, vertical tab, form feed). -/
def isWs (c : Char) : Bool :=
  c = ' ' || c = '\t' || c = '\n' || c = '\r' || c = '\x0b' || c = '\x0c'

/-- `p` is an initial segment of `l`. -/
@[reducible] def leads (p l : List Char) : Prop := l.take p.length = p

/-- `s` is a final segment of `l`. -/
@[reducible] def trails (s l : List Char) : Prop := ∃ k, l.drop k = s

/-- Case-sensitive literal match at the head: if `pat` begins `cs`, return the
remainder, else `none`.  Models matching a literal regex fragment without `i`. -/
def eatLit : List Char → List Char → Option (List Char)
  | [], cs => some cs
  | _ :: _, [] => none
  | p :: ps, c :: cs => if p = c then eatLit ps cs else none

/-- Case-insensitive literal match at the head (models literal fragments of a
regex compiled with the `i` flag). -/
def eatLitCI : List Char → List Char → Option (List Char)
  | [], cs => some cs
  | _ :: _, [] => none
  | p :: ps, c :: cs => if p.toLower = c.toLower then eatLitCI ps cs else none

/-- Does `p` occur (case-sensitively) as a contiguous run anywhere in `l`?
Models JS `String.prototype.includes`. -/
def containsLit (p : List Char) : List Char → Bool
  | [] => (eatLit p []).isSome
  | c :: cs => (eatLit p (c :: cs)).isSome || containsLit p cs

/-- Case-insensitive occurrence test: `pat` occurs in `cs` up to case. -/
def occursCI (pat cs : List Char) : Bool := containsLit (lc pat) (lc cs)

/-- Consume `[^>]*>`: drop characters up to and including the first `>`;
`none` when no `>` remains. -/
def skipToGt : List Char → Option (List Char)
  | [] => none
  | c :: cs => if c = '>' then some cs else skipToGt cs

/-- One leftmost-match scan: try the position matcher `m` at every suffix, left
to right; on the first success return the characters before that position
together with `m`'s remainder.  Models `RegExp` leftmost-match search where `m`
decides a whole-pattern match anchored at a position. -/
def scanFirst (m : List Char → Option (List Char)) : List Char → Option (List Char × List Char)
  | [] => none
  | c :: cs =>
    match m (c :: cs) with
    | some rest => some ([], rest)
    | none =>
      match scanFirst m cs with
      | some (pre, rest) => some (c :: pre, rest)
      | none => none

/-- Leftmost-match scan returning the capture computed by the position matcher
`m` at the first position where it succeeds. -/
def scanFirstCap (m : List Char → Option (List Char)) : List Char → Option (List Char)
  | [] => none
  | c :: cs =>
    match m (c :: cs) with
    | some cap => some cap
    | none => scanFirstCap m cs

/-! ## Tolerant feed parser (`parseRSS`, lines 62–84 of the source)

Field extraction inside a block is
`block.match(/<tag[^>]*><!\[CDATA\[([\s\S]*?)\]\]><\/tag>/i)
 || block.match(/<tag[^>]*>([\s\S]*?)<\/tag>/i)`,
followed by `.replace(/<[^>]+>/g, '')` and `.trim()`. -/

/-- Consume `<` + tag-name (case-insensitively) + `[^>]*>`; return the rest. -/
def matchTagOpen (tag cs : List Char) : Option (List Char) :=
  (eatLitCI ('<' :: tag) cs).bind skipToGt

/-- The literal `</tag>`. -/
def closeTag (tag : List Char) : List Char := '<' :: '/' :: (tag ++ ['>'])

/-- The literal `<![CDATA[`. -/
def cdataOpenL : List Char := "<![CDATA[".toList

/-- The literal `]]></tag>`. -/
def cdataCloseT (tag : List Char) : List Char := "]]></".toList ++ (tag ++ ['>'])

/-- Anchored match of the plain-text field regex `<tag[^>]*>([\s\S]*?)</tag>`
at the head of `cs`; returns the (lazy, i.e. shortest) capture. -/
def plainAt (tag cs : List Char) : Option (List Char) :=
  (matchTagOpen tag cs).bind fun ao =>
    (scanFirst (eatLitCI (closeTag tag)) ao).map Prod.fst

/-- Anchored match of the CDATA field regex
`<tag[^>]*><!\[CDATA\[([\s\S]*?)\]\]></tag>` at the head of `cs`. -/
def cdataAt (tag cs : List Char) : Option (List Char) :=
  ((matchTagOpen tag cs).bind (eatLitCI cdataOpenL)).bind fun a =>
    (scanFirst (eatLitCI (cdataCloseT tag)) a).map Prod.fst

/-- `[^>]+>` after a `<`: at least one non-`>` character, then up to and past
the first `>`.  Used by the tag-stripping replace. -/
def tagSpan : List Char → Option (List Char)
  | [] => none
  | c :: cs => if c = '>' then none else skipToGt cs

/-- Fuelled worker for `replace(/<[^>]+>/g, '')`: global leftmost replacement
of `<[^>]+>` by the empty string.  Fuel `≥ length` always suffices because each
step consumes at least one character. -/
def stripTagsF : Nat → List Char → List Char
  | 0, cs => cs
  | _ + 1, [] => []
  | fuel + 1, c :: cs =>
    if c = '<' then
      match tagSpan cs with
      | some rest => stripTagsF fuel rest
      | none => c :: stripTagsF fuel cs
    else c :: stripTagsF fuel cs

/-- `replace(/<[^>]+>/g, '')`. -/
def stripTags (cs : List Char) : List Char := stripTagsF cs.length cs

/-- `String.prototype.trim` (on the ASCII whitespace class). -/
def trimChars (cs : List Char) : List Char :=
  ((cs.dropWhile isWs).reverse.dropWhile isWs).reverse

/-- The post-processing applied to every captured field:
strip nested markup tags, then trim whitespace. -/
def cleanup (cap : List Char) : List Char := trimChars (stripTags cap)

/-- The `get(tag)` helper of `parseRSS`: CDATA-wrapped match first, plain-text
match as fallback, post-processed by `cleanup`; empty string when neither
regex matches anywhere in the block. -/
def getField (tag block : List Char) : List Char :=
  match scanFirstCap (cdataAt tag) block with
  | some cap => cleanup cap
  | none =>
    match scanFirstCap (plainAt tag) block with
    | some cap => cleanup cap
    | none => []

/-- JS `||` on strings: first operand unless it is empty (falsy). -/
def jsOr (a b : List Char) : List Char := if a = [] then b else a

/-- The literal `href="`. -/
def hrefL : List Char := "href=\"".toList

/-- `([^"]+)"`: the run of non-quote characters up to the first `"`;
`none` if no `"` remains. -/
def splitAtQuote : List Char → Option (List Char × List Char)
  | [] => none
  | c :: cs =>
    if c = '"' then some ([], cs)
    else
      match splitAtQuote cs with
      | some (pre, rest) => some (c :: pre, rest)
      | none => none

/-- Anchored match of `/href="([^"]+)"/` (case-sensitive, no `i` flag). -/
def hrefAt (cs : List Char) : Option (List Char) :=
  match eatLit hrefL cs with
  | some rest =>
    match splitAtQuote rest with
    | some (pre, _) => if pre = [] then none else some pre
    | none => none
  | none => none

/-- An article record as produced by the parser (`source` not yet attached). -/
structure Article where
  title : List Char
  description : List Char
  link : List Char
  pubDate : List Char
  deriving DecidableEq, Repr

/-- The per-block body of the `parseRSS` loop: extract the four fields, then
keep the record only when the title is non-empty (`if (title) items.push…`);
the description is truncated to 500 characters at push time. -/
def parseArticle (block : List Char) : Option Article :=
  let title := getField "title".toList block
  let description :=
    jsOr (getField "description".toList block)
      (jsOr (getField "summary".toList block) (getField "content".toList block))
  let link :=
    jsOr (getField "link".toList block)
      ((scanFirstCap hrefAt block).getD [])
  let pubDate :=
    jsOr (getField "pubDate".toList block)
      (jsOr (getField "published".toList block) (getField "updated".toList block))
  if title = [] then none
  else some ⟨title, description.take 500, link, pubDate⟩

/-! Block scanning: `/<(?:item|entry)[\s>]([\s\S]*?)<\/(?:item|entry)>/gi`
run in an `exec` loop. -/

/-- `[\s>]` after the tag name: the single delimiter character. -/
def afterOpenChar : List Char → Option (List Char)
  | [] => none
  | c :: r => if c = '>' || isWs c then some r else none

/-- Anchored match of `<(?:item|entry)[\s>]`; the capture group of the block
regex starts right after the consumed delimiter. -/
def matchOpener (cs : List Char) : Option (List Char) :=
  match eatLitCI "<item".toList cs with
  | some r => afterOpenChar r
  | none =>
    match eatLitCI "<entry".toList cs with
    | some r => afterOpenChar r
    | none => none

/-- The literal `</item>`. -/
def itemCloseL : List Char := "</item>".toList

/-- The literal `</entry>`. -/
def entryCloseL : List Char := "</entry>".toList

/-- Anchored match of `<\/(?:item|entry)>`. -/
def closerAt (cs : List Char) : Option (List Char) :=
  match eatLitCI itemCloseL cs with
  | some r => some r
  | none => eatLitCI entryCloseL cs

/-- The lazy `([\s\S]*?)` bounded by the closing alternation: the capture runs
to the first position where a closer matches. -/
def findCloser : List Char → Option (List Char × List Char) := scanFirst closerAt

/-- Fuelled worker for the `itemRegex.exec` loop: find the leftmost opener
followed (lazily) by a closer; emit the capture and continue after the match;
when an opener has no subsequent closer the engine advances one character.
Each step consumes at least one character, so fuel `≥ length` suffices. -/
def scanItemsF : Nat → List Char → List (List Char)
  | 0, _ => []
  | _ + 1, [] => []
  | fuel + 1, c :: rest =>
    match matchOpener (c :: rest) with
    | some afterOpen =>
      match findCloser afterOpen with
      | some (block, afterClose) => block :: scanItemsF fuel afterClose
      | none => scanItemsF fuel rest
    | none => scanItemsF fuel rest

/-- All block captures of the item regex over the document, in match order. -/
def scanItems (cs : List Char) : List (List Char) := scanItemsF cs.length cs

/-- `parseRSS`: every `<item>`/`<entry>` block capture, turned into an article
when its extracted title is non-empty, in block order. -/
def parseRSS (xml : List Char) : List Article :=
  (scanItems xml).filterMap parseArticle

/-! ## Recency filter (`isRecent`, lines 103–109)

```js
function isRecent(pubDate) {
  if (!pubDate) return true; // include if no date
  try {
    const d = new Date(pubDate);
    return (Date.now() - d.getTime()) < 26 * 60 * 60 * 1000; // 26hr buffer
  } catch(e) { return true; }
}
```

`new Date(s)` on a string never throws in JS; an unparseable string yields an
Invalid Date whose `getTime()` is `NaN`, and `Date.now() - NaN < 26h` is
`NaN < 26h`, which is `false`.  The date parser is abstracted as an oracle
`parse : List Char → Option Int` giving the epoch milliseconds, with `none` for
Invalid Date (`NaN`); the `catch` branch is unreachable and therefore absent
from the embedding. -/

/-- The recency filter.  `nowMs` is `Date.now()`; `parse` models
`s ↦ new Date(s).getTime()` with `none` for `NaN`. -/
def isRecent (nowMs : Int) (parse : List Char → Option Int) (pubDate : List Char) : Bool :=
  if pubDate = [] then true
  else
    match parse pubDate with
    | some t => decide (nowMs - t < 26 * 60 * 60 * 1000)
    | none => false

/-! ## Feed locator (`BALTIMORE_RSS_FEEDS` and lines 125–140) -/

/-- The static feed table, in source (object-literal insertion) order. -/
def BALTIMORE_RSS_FEEDS : List (List Char × List Char) :=
  [ ("baltimoresun.com".toList,      "https://www.baltimoresun.com/arcio/rss/".toList),
    ("wbal.com".toList,              "https://www.wbal.com/rss".toList),
    ("wbaltv.com".toList,            "https://www.wbaltv.com/rss".toList),
    ("marylandmatters.org".toList,   "https://marylandmatters.org/feed/".toList),
    ("baltimorebrew.com".toList,     "https://baltimorebrew.com/feed/".toList),
    ("thedailyrecord.com".toList,    "https://thedailyrecord.com/feed/".toList),
    ("wypr.org".toList,              "https://www.wypr.org/rss.xml".toList),
    ("foxbaltimore.com".toList,      "https://foxbaltimore.com/rss".toList),
    ("wmar2news.com".toList,         "https://www.wmar2news.com/rss".toList),
    ("cbsnews.com/baltimore".toList, "https://www.cbsnews.com/latest/rss/local/wbz".toList),
    ("therealnews.com".toList,       "https://therealnews.com/feed".toList),
    ("technical.ly/baltimore".toList,"https://technical.ly/feed/".toList) ]

/-- The inner loop over `Object.entries(BALTIMORE_RSS_FEEDS)`:
first key that is a substring of the site wins (`site.includes(key)`). -/
def findFeed (site : List Char) : List (List Char × List Char) → Option (List Char)
  | [] => none
  | (key, url) :: rest => if containsLit key site then some url else findFeed site rest

/-- `site.replace(/\/$/, '')`: strip exactly one trailing slash, if present. -/
def stripTrailingSlash (site : List Char) : List Char :=
  if site.getLast? = some '/' then site.dropLast else site

/-- The feed candidates pushed onto `feedsToFetch` for one site: one canonical
URL on a table hit, otherwise the two heuristic guesses `base + '/feed/'` and
`base + '/rss'`. -/
def feedsFor (site : List Char) : List (List Char × List Char) :=
  match findFeed site BALTIMORE_RSS_FEEDS with
  | some url => [(site, url)]
  | none =>
    [(site, stripTrailingSlash site ++ "/feed/".toList),
     (site, stripTrailingSlash site ++ "/rss".toList)]

/-! ## Aggregation engine and cache store (`fetchAndCacheRSS`, lines 115–178,
and the `/api/rss` read path, lines 184–188) -/

/-- An aggregated item: a parsed article tagged with its originating site
(`{ ...item, source: site }`). -/
structure SItem where
  title : List Char
  description : List Char
  link : List Char
  pubDate : List Char
  source : List Char
  deriving DecidableEq, Repr

/-- `{ ...item, source }`. -/
def withSource (site : List Char) (a : Article) : SItem :=
  ⟨a.title, a.description, a.link, a.pubDate, site⟩

/-- The dedup loop with its `seen` set:
`allItems.filter(item => !seen.has(item.title) && seen.add(item.title))`. -/
def dedupGo (seen : List (List Char)) : List SItem → List SItem
  | [] => []
  | a :: rest =>
    if a.title ∈ seen then dedupGo seen rest
    else a :: dedupGo (a.title :: seen) rest

/-- Deduplicate by exact (case-sensitive) title, keeping the first occurrence
encountered. -/
def dedupByTitle (l : List SItem) : List SItem := dedupGo [] l

/-- The item sequence written into the snapshot: `unique.slice(0, 40)`. -/
def snapshotItems (allItems : List SItem) : List SItem :=
  (dedupByTitle allItems).take 40

/-- The `rssCache` value: items, ISO timestamp of the pass, fetch errors. -/
structure RssCache where
  items : List SItem
  fetchedAt : Option (List Char)
  errors : List (List Char)
  deriving DecidableEq, Repr

/-- The default-empty snapshot `{ items: [], fetchedAt: null, errors: [] }`
served when no pass has ever written `rssCache`. -/
def emptyCache : RssCache := ⟨[], none, []⟩

/-- The JSON data store at `/tmp/quiz-data.json`, with its fields as used by
the server; `other` stands for any further keys the file may hold. -/
structure QuizData where
  sites : Option (List Char)
  rssCache : Option RssCache
  posts : Option (List Char)
  messages : Option (List Char)
  other : List (List Char × List Char)
  deriving DecidableEq, Repr

/-- `(data.sites || '').split('\n').map(s => s.trim()).filter(Boolean)`. -/
def splitNl : List Char → List (List Char)
  | [] => [[]]
  | c :: cs =>
    if c = '\n' then [] :: splitNl cs
    else
      match splitNl cs with
      | s :: ss => (c :: s) :: ss
      | [] => [[c]]

/-- The configured site list extracted from the store. -/
def parseSiteList (sites : Option (List Char)) : List (List Char) :=
  ((splitNl (sites.getD [])).map trimChars).filter (· ≠ [])

/-- Outcome of one `fetchWithTimeout` slot: the fetched XML, a transport
failure (recorded as an error string), or the outer 8-second timer firing
first (which resolves the slot with no items and no error). -/
inductive FeedOutcome where
  | ok (xml : List Char)
  | fail (msg : List Char)
  | timeout
  deriving DecidableEq, Repr

/-- One feed's item contribution to `allItems`: parsed articles surviving the
recency filter, tagged with the site. -/
def feedContribution (nowMs : Int) (parse : List Char → Option Int)
    (site : List Char) (o : FeedOutcome) : List SItem :=
  match o with
  | .ok xml =>
    ((parseRSS xml).filter fun a => isRecent nowMs parse a.pubDate).map (withSource site)
  | _ => []

/-- One feed's error contribution: `` `${feedUrl}: ${e.message}` `` on a
transport failure, nothing otherwise. -/
def feedError (url : List Char) (o : FeedOutcome) : Option (List Char) :=
  match o with
  | .fail msg => some (url ++ ": ".toList ++ msg)
  | _ => none

/-- One aggregation pass (`fetchAndCacheRSS`) as a store transformer.
`d0` is the store read at the start of the pass; `d1` the store re-read
immediately before the write (`const freshData = readData()`); `net` gives the
outcome of each `(site, feedUrl)` fetch slot; `nowMs`/`parse` feed the recency
filter and `nowIso` is `new Date().toISOString()`.  The result is `none` when
the pass returns without writing (no sites configured), and `some d'` when it
writes `d'` to the data file.  Item/error collection order is modelled in feed
order; the source's completion order is a race the claims below do not rely
on. -/
def fetchAndCacheRSSModel (d0 d1 : QuizData)
    (net : List Char → List Char → FeedOutcome)
    (nowMs : Int) (parse : List Char → Option Int) (nowIso : List Char) :
    Option QuizData :=
  let savedSites := parseSiteList d0.sites
  if savedSites = [] then none
  else
    let feedsToFetch := savedSites.flatMap feedsFor
    let results := feedsToFetch.map fun p => (p.1, p.2, net p.1 p.2)
    let allItems := results.flatMap fun r => feedContribution nowMs parse r.1 r.2.2
    let errors := results.filterMap fun r => feedError r.2.1 r.2.2
    some { d1 with
            rssCache := some ⟨snapshotItems allItems, some nowIso, errors⟩ }

/-- The `/api/rss` read handler: serve `data.rssCache || default`; the pair's
second component is the store after the request, which the handler never
writes (no call to `writeData` and no fetch appears on that path). -/
def getCachedArticles (d : QuizData) : RssCache × QuizData :=
  (d.rssCache.getD emptyCache, d)

/-! ## Feed transport (`fetchUrl`, lines 41–59)

```js
if (res.statusCode >= 300 && res.statusCode < 400 && res.headers.location) {
  return fetchUrl(res.headers.location).then(resolve).catch(reject);
}
```

The network is an oracle `url ↦ response`.  `location = none` models an absent
`Location` header and `some []` an empty one (both falsy in JS).  The source
recursion has no depth cap, so the embedding is fuelled: `none` means the
recursion has not produced a response within the given depth. -/

/-- An HTTP response as seen by `fetchUrl`. -/
structure HttpResponse where
  statusCode : Nat
  location : Option (List Char)
  body : List Char
  deriving DecidableEq, Repr

/-- The redirect guard `res.statusCode >= 300 && res.statusCode < 400 &&
res.headers.location` (the last conjunct is JS truthiness). -/
def redirectCond (r : HttpResponse) : Bool :=
  300 ≤ r.statusCode && r.statusCode < 400 &&
    (match r.location with
     | some l => !l.isEmpty
     | none => false)

/-- `fetchUrl`, fuelled: follow the redirect recursively when the guard holds,
otherwise resolve with the response body. -/
def fetchUrlFuel (net : List Char → HttpResponse) : Nat → List Char → Option (List Char)
  | 0, _ => none
  | n + 1, url =>
    let r := net url
    if redirectCond r then fetchUrlFuel net n ((r.location).getD [])
    else some r.body

/-! ## Well-formed feed documents (inputs for the parser claims)

A feed made of well-formed, non-overlapping blocks: each block is wrapped in
`<item>…</item>` or `<entry>…</entry>`, and its body contains no occurrence
(case-insensitive, as matched by the `i`-flagged regex) of either closing tag —
otherwise the lazy capture would end at that earlier closer. -/

/-- The opening wrapper of a block (`false` = RSS item, `true` = Atom entry). -/
def openerOf : Bool → List Char
  | true => "<entry>".toList
  | false => "<item>".toList

/-- The closing wrapper of a block. -/
def closerOf : Bool → List Char
  | true => entryCloseL
  | false => itemCloseL

/-- A block body is clean when neither closing tag occurs in it
(case-insensitively). -/
@[reducible] def cleanBlock (b : List Char) : Prop :=
  occursCI itemCloseL b = false ∧ occursCI entryCloseL b = false

/-- Surrounding markup (prologue, channel metadata, separators, epilogue) is
a clean separator when it contains no block opener `<item`/`<entry`
(case-insensitively) — otherwise it would start a block of its own. -/
@[reducible] def cleanSep (j : List Char) : Prop :=
  occursCI "<item".toList j = false ∧ occursCI "<entry".toList j = false

/-- A feed document containing the given blocks in order, each wrapped in its
`<item>`/`<entry>` tags, preceded by the prologue `pre` and each followed by
its own trailing markup (the last block's trailing markup is the epilogue). -/
def mkFeedJ : List Char → List ((Bool × List Char) × List Char) → List Char
  | pre, [] => pre
  | pre, pb :: bs =>
    pre ++ (openerOf pb.1.1 ++ (pb.1.2 ++ (closerOf pb.1.1 ++ mkFeedJ pb.2 bs)))

/-- The article record produced by the parser loop from a block whose
extracted title is non-empty (the `some` branch of `parseArticle`). -/
def articleOfBlock (b : List Char) : Article :=
  ⟨getField "title".toList b,
   (jsOr (getField "description".toList b)
     (jsOr (getField "summary".toList b) (getField "content".toList b))).take 500,
   jsOr (getField "link".toList b) ((scanFirstCap hrefAt b).getD []),
   jsOr (getField "pubDate".toList b)
     (jsOr (getField "published".toList b) (getField "updated".toList b))⟩

/-- The prologue of the witness feed document. -/
def wFeedPre : List Char :=
  "<?xml version=\"1.0\"?><rss><channel><title>chan</title>".toList

/-- The two blocks (with their trailing markup) used to witness the parser
claims on a concrete feed: one RSS item, one Atom entry, channel epilogue. -/
def wBlocks : List ((Bool × List Char) × List Char) :=
  [((false, "<title>Alpha</title>".toList), "\n  ".toList),
   ((true, "<title>Beta</title><summary>sum</summary>".toList),
    "</channel></rss>".toList)]

/-- The literal `</description>`. -/
def descCloseL : List Char := "</description>".toList

/-- The literal `]]></description>`. -/
def cdataCloseDescL : List Char := "]]></description>".toList

/-- A title-bearing block whose description wraps `c` in CDATA. -/
def blockCdata (c : List Char) : List Char :=
  "<title>t</title><description><![CDATA[".toList ++ (c ++ cdataCloseDescL)

/-- A title-bearing block carrying `c` as plain description tag text. -/
def blockPlain (c : List Char) : List Char :=
  "<title>t</title><description>".toList ++ (c ++ descCloseL)

/-- An aggregated item with only its title populated (witness material). -/
def wTitledItem (t : List Char) : SItem := ⟨t, [], [], [], []⟩

/-- Fifty items with pairwise distinct titles (witness material for the
truncation property). -/
def wItems50 : List SItem :=
  (List.range 50).map fun i => wTitledItem (List.replicate i 'a')

/-- A merged collection with a duplicated title: the first occurrence carries
source `s1`, the duplicate source `s2` (witness material for first-wins). -/
def wDupItems : List SItem :=
  [⟨"x".toList, [], [], [], "s1".toList⟩,
   wTitledItem "y".toList,
   ⟨"x".toList, [], [], [], "s2".toList⟩]

/-- A date-parse oracle for evaluating the recency filter: it knows two
timestamps (25 and 27 hours before a "now" of 100 h into the epoch) and
reports everything else as Invalid Date. -/
def wParse25 : List Char → Option Int := fun s =>
  if s = "25-hours-ago".toList then some ((100 - 25) * 3600000)
  else if s = "27-hours-ago".toList then some ((100 - 27) * 3600000)
  else none

/-- A network in which `http://u` answers 301 with an *empty* `Location`
header and a distinctive body, while every other URL answers 200. -/
def wRedirNet : List Char → HttpResponse := fun url =>
  if url = "http://u".toList then ⟨301, some [], "own-body".toList⟩
  else ⟨200, none, "target-body".toList⟩

/-- A network that redirects every URL to `loop`: the source recursion never
terminates on it. -/
def wLoopNet : List Char → HttpResponse := fun _ =>
  ⟨302, some "loop".toList, "ignored".toList⟩

/-- A two-hop network: `a` redirects to `b`, which answers 200. -/
def wChainNet : List Char → HttpResponse := fun url =>
  if url = "a".toList then ⟨302, some "b".toList, "redirect-page".toList⟩
  else ⟨200, none, "final".toList⟩

/-- A snapshot with content, for the cache-read witness. -/
def wCache : RssCache :=
  ⟨[wTitledItem "x".toList], some "t0".toList, ["err0".toList]⟩

/-- Store contents at the start of a witness aggregation pass. -/
def wData0 : QuizData := ⟨some "example.org".toList, none, none, none, []⟩

/-- Store contents re-read just before the witness pass publishes, carrying
every non-`rssCache` field populated. -/
def wData1 : QuizData :=
  ⟨some "oldsites".toList, some emptyCache, some "posts".toList,
   some "messages".toList, [("extra".toList, "value".toList)]⟩

/-- A network where every fetch fails with message `boom`. -/
def wNetFail : List Char → List Char → FeedOutcome := fun _ _ => .fail "boom".toList

/-- The store the witness pass writes: `wData1` with only `rssCache`
replaced (no items, two fetch errors — one per heuristic candidate). -/
def wDataOut : QuizData :=
  { wData1 with
    rssCache := some ⟨[], some "2026-01-01T00:00:00.000Z".toList,
      ["example.org/feed/: boom".toList, "example.org/rss: boom".toList]⟩ }

/-! ## Basic lemmas about the matching primitives -/

lemma lc_append (a b : List Char) : lc (a ++ b) = lc a ++ lc b := by
  simp [lc]

lemma lc_length (a : List Char) : (lc a).length = a.length := by
  simp [lc]

lemma lc_drop (k : Nat) (a : List Char) : lc (a.drop k) = (lc a).drop k := by
  simp [lc, List.map_drop]

lemma eatLitCI_length {p cs r : List Char} (h : eatLitCI p cs = some r) :
    r.length + p.length = cs.length := by
  induction p generalizing cs with
  | nil =>
    simp [eatLitCI] at h
    simp [h]
  | cons x xs ih =>
    cases cs with
    | nil => simp [eatLitCI] at h
    | cons c cs' =>
      rw [eatLitCI] at h
      split at h
      · have := ih h
        simp only [List.length_cons]
        omega
      · exact absurd h (by simp)

lemma eatLitCI_none_of_short {p cs : List Char} (h : cs.length < p.length) :
    eatLitCI p cs = none := by
  cases he : eatLitCI p cs with
  | none => rfl
  | some r => have := eatLitCI_length he; omega

lemma eatLitCI_some_iff {p cs r : List Char} :
    eatLitCI p cs = some r ↔ leads (lc p) (lc cs) ∧ r = cs.drop p.length := by
  induction p generalizing cs with
  | nil =>
    simp [eatLitCI, leads, lc, eq_comm]
  | cons x xs ih =>
    cases cs with
    | nil =>
      simp [eatLitCI, leads, lc]
    | cons c cs' =>
      have hgoal : leads (lc (x :: xs)) (lc (c :: cs')) ↔
          (x.toLower = c.toLower ∧ leads (lc xs) (lc cs')) := by
        unfold leads lc
        simp only [List.map_cons, List.length_cons, List.length_map,
          List.take_succ_cons, List.cons.injEq]
        constructor
        · rintro ⟨h1, h2⟩
          exact ⟨h1.symm, by simpa using h2⟩
        · rintro ⟨h1, h2⟩
          exact ⟨h1.symm, by simpa using h2⟩
      rw [eatLitCI]
      by_cases hx : x.toLower = c.toLower
      · rw [if_pos hx, ih, hgoal]
        simp [hx]
      · rw [if_neg hx, hgoal]
        simp [hx]

lemma eatLitCI_append_self (p r : List Char) : eatLitCI p (p ++ r) = some r := by
  induction p with
  | nil => rfl
  | cons x xs ih => rw [List.cons_append, eatLitCI, if_pos rfl]; exact ih

lemma eatLit_of_leads {p s : List Char} (h : leads p s) : (eatLit p s).isSome := by
  induction p generalizing s with
  | nil => simp [eatLit]
  | cons x xs ih =>
    cases s with
    | nil => simp [leads] at h
    | cons c cs =>
      unfold leads at h
      simp only [List.length_cons, List.take_succ_cons, List.cons.injEq] at h
      obtain ⟨hc, ht⟩ := h
      rw [eatLit, if_pos hc.symm]
      exact ih ht

/-! Final-segment (suffix) facts -/

lemma trails_refl (l : List Char) : trails l l := ⟨0, rfl⟩

lemma trails_cons_of {s : List Char} {c : Char} {cs : List Char}
    (h : trails s cs) : trails s (c :: cs) := by
  obtain ⟨k, hk⟩ := h
  exact ⟨k + 1, by simpa using hk⟩

lemma trails_trans {a b c : List Char} (h1 : trails a b) (h2 : trails b c) :
    trails a c := by
  obtain ⟨k1, hk1⟩ := h1
  obtain ⟨k2, hk2⟩ := h2
  exact ⟨k2 + k1, by rw [← List.drop_drop, hk2, hk1]⟩

lemma trails_cons_iff {s : List Char} {c : Char} {cs : List Char} :
    trails s (c :: cs) ↔ s = c :: cs ∨ trails s cs := by
  constructor
  · intro ⟨k, hk⟩
    cases k with
    | zero => exact Or.inl hk.symm
    | succ k => exact Or.inr ⟨k, by simpa using hk⟩
  · intro h
    rcases h with h | h
    · exact h ▸ trails_refl _
    · exact trails_cons_of h

lemma trails_append_cases {s A B : List Char} (h : trails s (A ++ B)) :
    (∃ a, trails a A ∧ s = a ++ B) ∨ trails s B := by
  obtain ⟨k, hk⟩ := h
  by_cases hle : k ≤ A.length
  · exact Or.inl ⟨A.drop k, ⟨k, rfl⟩, by rw [← hk, List.drop_append_of_le_length hle]⟩
  · refine Or.inr ⟨k - A.length, ?_⟩
    rw [← hk, List.drop_append_eq_append_drop,
      List.drop_of_length_le (show A.length ≤ k by omega), List.nil_append]

/-- If `p` occurs nowhere in `l` (case-sensitively), it heads no final segment
of `l`. -/
lemma containsLit_false {p l : List Char} (h : containsLit p l = false) :
    ∀ s, trails s l → ¬ leads p s := by
  induction l with
  | nil =>
    intro s hs hp
    obtain ⟨k, hk⟩ := hs
    simp only [List.drop_nil] at hk
    subst hk
    rw [containsLit] at h
    rw [eatLit_of_leads hp] at h
    exact absurd h (by simp)
  | cons c cs ih =>
    intro s hs hp
    rw [containsLit, Bool.or_eq_false_iff] at h
    rcases trails_cons_iff.mp hs with rfl | hs'
    · rw [eatLit_of_leads hp] at h
      exact absurd h.1 (by simp)
    · exact ih h.2 s hs' hp

/-- The case-insensitive occurrence bridge: `occursCI pat c = false` means no
final segment of `c` starts (case-insensitively) with `pat`. -/
lemma occursCI_false {pat c : List Char} (h : occursCI pat c = false) :
    ∀ c₂, trails c₂ c → ¬ leads (lc pat) (lc c₂) := by
  intro c₂ ⟨k, hk⟩ hp
  refine containsLit_false h (lc c₂) ⟨k, ?_⟩ hp
  rw [← lc_drop, hk]

/-- The straddle analysis: a case-insensitive literal match of `P` at the head
of `c₂ ++ T` either lies within `c₂`, or `c₂` is a strict initial fragment of
`P` and the rest of `P` heads `T`. -/
lemma eatLitCI_split {P c₂ T r : List Char} (h : eatLitCI P (c₂ ++ T) = some r) :
    leads (lc P) (lc c₂) ∨
      (c₂.length < P.length ∧ lc c₂ = (lc P).take c₂.length ∧
        leads ((lc P).drop c₂.length) (lc T)) := by
  have hl := (eatLitCI_some_iff.mp h).1
  unfold leads at hl
  rw [lc_append, lc_length] at hl
  by_cases hle : P.length ≤ c₂.length
  · left
    unfold leads
    rw [lc_length, ← hl,
      List.take_append_of_le_length (by rw [lc_length]; exact hle)]
  · push_neg at hle
    right
    have hsplit : lc P = lc c₂ ++ (lc T).take (P.length - c₂.length) := by
      rw [← hl, List.take_append_eq_append_take, lc_length,
        List.take_of_length_le (by rw [lc_length]; omega)]
    refine ⟨hle, ?_, ?_⟩
    · rw [hsplit, List.take_append_of_le_length (by rw [lc_length]),
        List.take_of_length_le (by rw [lc_length])]
    · unfold leads
      have h1 : (lc P).drop c₂.length = (lc T).take (P.length - c₂.length) := by
        rw [hsplit, List.drop_append_eq_append_drop,
          List.drop_of_length_le (by rw [lc_length]), lc_length, Nat.sub_self,
          List.drop_zero, List.nil_append]
      rw [h1, List.length_take]
      exact List.take_eq_take.mpr (by omega)

/-! ## Scanner lemmas -/

/-- Leftmost-match characterisation used throughout: if the position matcher
fails everywhere strictly inside `c` (at every non-empty final segment of `c`,
extended by `tail`) and succeeds at `tail`, the scan splits exactly at `c`. -/
lemma scanFirst_prepend {m : List Char → Option (List Char)} {c tail rst : List Char}
    (h0 : tail ≠ []) (hm : m tail = some rst)
    (hpre : ∀ c₂, c₂ ≠ [] → trails c₂ c → m (c₂ ++ tail) = none) :
    scanFirst m (c ++ tail) = some (c, rst) := by
  induction c with
  | nil =>
    obtain ⟨t, ts, rfl⟩ : ∃ t ts, tail = t :: ts := by
      cases tail with
      | nil => exact absurd rfl h0
      | cons t ts => exact ⟨t, ts, rfl⟩
    simp [scanFirst, hm]
  | cons a c' ih =>
    have hfail : m (a :: (c' ++ tail)) = none :=
      hpre (a :: c') (by simp) (trails_refl _)
    have ih' := ih fun c₂ hne htr => hpre c₂ hne (trails_cons_of htr)
    simp only [List.cons_append, scanFirst, List.append_eq, hfail, ih']

lemma scanFirst_none_of {m : List Char → Option (List Char)} {l : List Char}
    (h : ∀ s, trails s l → s ≠ [] → m s = none) : scanFirst m l = none := by
  induction l with
  | nil => rfl
  | cons c cs ih =>
    have h1 : m (c :: cs) = none := h _ (trails_refl _) (by simp)
    have h2 := ih fun s hs hne => h s (trails_cons_of hs) hne
    simp [scanFirst, h1, h2]

lemma scanFirstCap_none_of {m : List Char → Option (List Char)} {l : List Char}
    (h : ∀ s, trails s l → s ≠ [] → m s = none) : scanFirstCap m l = none := by
  induction l with
  | nil => rfl
  | cons c cs ih =>
    have h1 : m (c :: cs) = none := h _ (trails_refl _) (by simp)
    simp [scanFirstCap, h1, ih fun s hs hne => h s (trails_cons_of hs) hne]

lemma scanFirstCap_cons_some {m : List Char → Option (List Char)} {x : Char}
    {xs v : List Char} (h : m (x :: xs) = some v) :
    scanFirstCap m (x :: xs) = some v := by
  simp [scanFirstCap, h]

lemma scanFirstCap_cons_none {m : List Char → Option (List Char)} {x : Char}
    {xs : List Char} (h : m (x :: xs) = none) :
    scanFirstCap m (x :: xs) = scanFirstCap m xs := by
  simp [scanFirstCap, h]

lemma scanFirst_length {m : List Char → Option (List Char)} {cs pre rest : List Char}
    (hm : ∀ x y, m x = some y → y.length < x.length)
    (h : scanFirst m cs = some (pre, rest)) : rest.length < cs.length := by
  induction cs generalizing pre rest with
  | nil => simp [scanFirst] at h
  | cons c cs' ih =>
    rcases hmc : m (c :: cs') with _ | r
    · simp only [scanFirst, hmc] at h
      rcases hsc : scanFirst m cs' with _ | ⟨p, r2⟩
      · rw [hsc] at h
        simp at h
      · rw [hsc] at h
        simp only [Option.some.injEq, Prod.mk.injEq] at h
        obtain ⟨hp, hr⟩ := h
        subst hr
        have := ih hsc
        simp only [List.length_cons]
        omega
    · simp only [scanFirst, hmc, Option.some.injEq, Prod.mk.injEq] at h
      obtain ⟨hp, hr⟩ := h
      subst hr
      have := hm _ _ hmc
      omega

/-! ## Fuel irrelevance for the item scanner -/

lemma afterOpenChar_length {cs r : List Char} (h : afterOpenChar cs = some r) :
    r.length + 1 = cs.length := by
  cases cs with
  | nil => simp [afterOpenChar] at h
  | cons c cs' =>
    rw [afterOpenChar] at h
    split at h
    · simp only [Option.some.injEq] at h
      simp [← h]
    · exact absurd h (by simp)

lemma matchOpener_length {cs r : List Char} (h : matchOpener cs = some r) :
    r.length < cs.length := by
  rw [matchOpener] at h
  rcases h1 : eatLitCI "<item".toList cs with _ | r1
  · rw [h1] at h
    rcases h2 : eatLitCI "<entry".toList cs with _ | r2
    · rw [h2] at h
      exact absurd h (by simp)
    · rw [h2] at h
      have hl := eatLitCI_length h2
      have ha := afterOpenChar_length h
      simp at hl
      omega
  · rw [h1] at h
    have hl := eatLitCI_length h1
    have ha := afterOpenChar_length h
    simp at hl
    omega

lemma closerAt_length {cs r : List Char} (h : closerAt cs = some r) :
    r.length < cs.length := by
  rw [closerAt] at h
  rcases h1 : eatLitCI itemCloseL cs with _ | r1
  · rw [h1] at h
    have hl := eatLitCI_length h
    have h8 : entryCloseL.length = 8 := rfl
    omega
  · rw [h1] at h
    simp only [Option.some.injEq] at h
    subst h
    have hl := eatLitCI_length h1
    have h7 : itemCloseL.length = 7 := rfl
    omega

lemma findCloser_length {cs pre rest : List Char}
    (h : findCloser cs = some (pre, rest)) : rest.length < cs.length :=
  scanFirst_length (fun _ _ hc => closerAt_length hc) h

/-- Any fuel at least the input length gives the same scan as the canonical
fuel, so `scanItems` is insensitive to the fuel bookkeeping. -/
lemma scanItemsF_congr : ∀ (f₁ f₂ : Nat) (cs : List Char),
    cs.length ≤ f₁ → cs.length ≤ f₂ → scanItemsF f₁ cs = scanItemsF f₂ cs := by
  intro f₁
  induction f₁ with
  | zero =>
    intro f₂ cs h1 _
    have : cs = [] := List.length_eq_zero.mp (Nat.le_zero.mp h1)
    subst this
    cases f₂ <;> rfl
  | succ f ih =>
    intro f₂ cs h1 h2
    cases cs with
    | nil => cases f₂ <;> rfl
    | cons c rest =>
      obtain ⟨f₂', rfl⟩ : ∃ g, f₂ = g + 1 := by
        cases f₂ with
        | zero => simp at h2
        | succ g => exact ⟨g, rfl⟩
      simp only [List.length_cons] at h1 h2
      simp only [scanItemsF]
      rcases ho : matchOpener (c :: rest) with _ | afterOpen
      · dsimp only
        exact ih f₂' rest (by omega) (by omega)
      · dsimp only
        rcases hc : findCloser afterOpen with _ | ⟨block, afterClose⟩
        · dsimp only
          exact ih f₂' rest (by omega) (by omega)
        · dsimp only
          have hlen1 := matchOpener_length ho
          have hlen2 := findCloser_length hc
          simp only [List.length_cons] at hlen1
          rw [ih f₂' afterClose (by omega) (by omega)]

/-! ## Parser correctness on well-formed feeds -/

lemma leads_append_left {q A B : List Char} (h : leads q (A ++ B))
    (hl : q.length ≤ A.length) : leads q A := by
  unfold leads at h ⊢
  rw [List.take_append_of_le_length hl] at h
  exact h

/-- No strict tail fragment of either closing tag begins the other (or the
same) closing tag: the closers cannot straddle a block/closer boundary. -/
lemma closer_no_overlap :
    ∀ P ∈ [itemCloseL, entryCloseL], ∀ cl ∈ [itemCloseL, entryCloseL],
      ∀ m ∈ List.range P.length, 0 < m → ¬ leads ((lc P).drop m) (lc cl) := by
  decide

/-- Inside a clean block, no position matches a closing tag, even with the
real closer (and arbitrary continuation) appended. -/
lemma closerAt_none_inside {b : List Char} (hb : cleanBlock b)
    {c₂ : List Char} (hne : c₂ ≠ []) (htr : trails c₂ b) {cl : List Char}
    (hcl : cl = itemCloseL ∨ cl = entryCloseL) (rest : List Char) :
    closerAt (c₂ ++ (cl ++ rest)) = none := by
  have hnone : ∀ P, P = itemCloseL ∨ P = entryCloseL →
      eatLitCI P (c₂ ++ (cl ++ rest)) = none := by
    intro P hP
    cases he : eatLitCI P (c₂ ++ (cl ++ rest)) with
    | none => rfl
    | some r =>
      exfalso
      rcases eatLitCI_split he with hld | ⟨hlt, _, hleads⟩
      · rcases hP with rfl | rfl
        · exact occursCI_false hb.1 c₂ htr hld
        · exact occursCI_false hb.2 c₂ htr hld
      · rw [lc_append] at hleads
        have hPl : P.length ≤ 8 := by
          rcases hP with rfl | rfl <;> decide
        have hcll : 7 ≤ cl.length := by
          rcases hcl with rfl | rfl <;> decide
        have hpos : 0 < c₂.length := List.length_pos.mpr hne
        have hql : ((lc P).drop c₂.length).length ≤ (lc cl).length := by
          rw [List.length_drop, lc_length, lc_length]
          omega
        have hl2 := leads_append_left hleads hql
        exact closer_no_overlap P
          (by rcases hP with rfl | rfl <;> simp) cl
          (by rcases hcl with rfl | rfl <;> simp) c₂.length
          (List.mem_range.mpr hlt) hpos hl2
  rw [closerAt, hnone itemCloseL (Or.inl rfl), hnone entryCloseL (Or.inr rfl)]

/-- In a well-formed block the lazy closer search splits exactly at the
block's own closing tag. -/
lemma findCloser_block {b : List Char} (e : Bool) (rest : List Char)
    (hb : cleanBlock b) :
    findCloser (b ++ (closerOf e ++ rest)) = some (b, rest) := by
  apply scanFirst_prepend
  · cases e <;> simp [closerOf, itemCloseL, entryCloseL]
  · cases e
    · show closerAt (itemCloseL ++ rest) = some rest
      rw [closerAt, eatLitCI_append_self]
    · show closerAt (entryCloseL ++ rest) = some rest
      rw [closerAt,
        show eatLitCI itemCloseL (entryCloseL ++ rest) = none from rfl,
        eatLitCI_append_self]
  · intro c₂ hne htr
    exact closerAt_none_inside hb hne htr (by cases e <;> simp [closerOf]) rest

lemma matchOpener_block (e : Bool) (X : List Char) :
    matchOpener (openerOf e ++ X) = some X := by
  cases e <;> rfl

/-- One unfolding of the item-scan loop at a successful match. -/
lemma scanItems_eq_cons {l ao block after : List Char} (hl : l ≠ [])
    (ho : matchOpener l = some ao)
    (hc : findCloser ao = some (block, after)) :
    scanItems l = block :: scanItems after := by
  obtain ⟨c, rest, rfl⟩ : ∃ c rest, l = c :: rest := by
    cases l with
    | nil => exact absurd rfl hl
    | cons c rest => exact ⟨c, rest, rfl⟩
  unfold scanItems
  simp only [List.length_cons, scanItemsF, ho, hc]
  congr 1
  have h1 := matchOpener_length ho
  have h2 := findCloser_length hc
  simp only [List.length_cons] at h1
  exact scanItemsF_congr _ _ _ (by omega) (Nat.le_refl _)

lemma matchOpener_none_of {cs : List Char}
    (h1 : eatLitCI "<item".toList cs = none)
    (h2 : eatLitCI "<entry".toList cs = none) : matchOpener cs = none := by
  rw [matchOpener, h1, h2]

/-- No strict tail fragment of either opening tag begins either opening
wrapper: openers cannot straddle a separator/block boundary. -/
lemma opener_no_overlap :
    ∀ P ∈ ["<item".toList, "<entry".toList], ∀ e : Bool,
      ∀ m ∈ List.range P.length, 0 < m →
        ¬ leads ((lc P).drop m) (lc (openerOf e)) := by
  decide

/-- Inside clean separator markup, no position matches a block opener, even
with the next block's opening wrapper (and arbitrary continuation)
appended. -/
lemma matchOpener_none_junk {j : List Char} (hj : cleanSep j) {s : List Char}
    (hne : s ≠ []) (htr : trails s j) (e : Bool) (X : List Char) :
    matchOpener (s ++ (openerOf e ++ X)) = none := by
  have hnone : ∀ P, P = "<item".toList ∨ P = "<entry".toList →
      eatLitCI P (s ++ (openerOf e ++ X)) = none := by
    intro P hP
    cases he : eatLitCI P (s ++ (openerOf e ++ X)) with
    | none => rfl
    | some r =>
      exfalso
      rcases eatLitCI_split he with hld | ⟨hlt, _, hleads⟩
      · rcases hP with rfl | rfl
        · exact occursCI_false hj.1 s htr hld
        · exact occursCI_false hj.2 s htr hld
      · rw [lc_append] at hleads
        have hPl : P.length ≤ 6 := by
          rcases hP with rfl | rfl <;> decide
        have hol : 6 ≤ (openerOf e).length := by
          cases e <;> decide
        have hpos : 0 < s.length := List.length_pos.mpr hne
        have hql : ((lc P).drop s.length).length ≤ (lc (openerOf e)).length := by
          rw [List.length_drop, lc_length, lc_length]
          omega
        have hl2 := leads_append_left hleads hql
        exact opener_no_overlap P
          (by rcases hP with rfl | rfl <;> simp) e s.length
          (List.mem_range.mpr hlt) hpos hl2
  exact matchOpener_none_of (hnone _ (Or.inl rfl)) (hnone _ (Or.inr rfl))

/-- In separator markup with nothing appended, no position matches a block
opener at all. -/
lemma matchOpener_none_trailing {j : List Char} (hj : cleanSep j) {s : List Char}
    (htr : trails s j) : matchOpener s = none := by
  have hnone : ∀ (P : List Char), occursCI P j = false → eatLitCI P s = none := by
    intro P hocc
    cases he : eatLitCI P s with
    | none => rfl
    | some r =>
      exact absurd (eatLitCI_some_iff.mp he).1 (occursCI_false hocc s htr)
  exact matchOpener_none_of (hnone _ hj.1) (hnone _ hj.2)

/-- One unfolding of the item-scan loop at a failed position. -/
lemma scanItems_cons_skip {c : Char} {rest : List Char}
    (ho : matchOpener (c :: rest) = none) :
    scanItems (c :: rest) = scanItems rest := by
  unfold scanItems
  simp only [List.length_cons, scanItemsF, ho]

lemma occursCI_tail {P : List Char} {c : Char} {rest : List Char}
    (h : occursCI P (c :: rest) = false) : occursCI P rest = false := by
  simp only [occursCI, lc, List.map_cons, containsLit, Bool.or_eq_false_iff] at h
  exact h.2

lemma cleanSep_tail {c : Char} {rest : List Char} (h : cleanSep (c :: rest)) :
    cleanSep rest :=
  ⟨occursCI_tail h.1, occursCI_tail h.2⟩

/-- Clean trailing markup contributes no blocks. -/
lemma scanItems_junk {j : List Char} (hj : cleanSep j) : scanItems j = [] := by
  induction j with
  | nil => rfl
  | cons c rest ih =>
    rw [scanItems_cons_skip (matchOpener_none_trailing hj (trails_refl _)),
      ih (cleanSep_tail hj)]

/-- The scan skips clean separator markup preceding a block opener. -/
lemma scanItems_skip {j : List Char} (hj : cleanSep j) (e : Bool) (X : List Char) :
    scanItems (j ++ (openerOf e ++ X)) = scanItems (openerOf e ++ X) := by
  induction j with
  | nil => rfl
  | cons c rest ih =>
    have ho : matchOpener (c :: (rest ++ (openerOf e ++ X))) = none :=
      matchOpener_none_junk hj (by simp) (trails_refl _) e X
    rw [List.cons_append, scanItems_cons_skip ho, ih (cleanSep_tail hj)]

/-- The block scanner recovers exactly the bodies of a well-formed feed
document, in order, ignoring all clean surrounding markup. -/
lemma scanItems_mkFeedJ : ∀ (bs : List ((Bool × List Char) × List Char))
    (pre : List Char), cleanSep pre →
    (∀ p ∈ bs, cleanBlock p.1.2 ∧ cleanSep p.2) →
    scanItems (mkFeedJ pre bs) = bs.map fun p => p.1.2 := by
  intro bs
  induction bs with
  | nil =>
    intro pre hpre _
    exact scanItems_junk hpre
  | cons p bs' ih =>
    intro pre hpre h
    obtain ⟨⟨e, b⟩, j⟩ := p
    have hb : cleanBlock b := (h ((e, b), j) (by simp)).1
    have hj : cleanSep j := (h ((e, b), j) (by simp)).2
    show scanItems (pre ++ (openerOf e ++ (b ++ (closerOf e ++ mkFeedJ j bs'))))
        = b :: bs'.map fun p => p.1.2
    rw [scanItems_skip hpre e _,
      scanItems_eq_cons (l := openerOf e ++ (b ++ (closerOf e ++ mkFeedJ j bs')))
        (by cases e <;> simp [openerOf])
        (matchOpener_block e _)
        (findCloser_block e (mkFeedJ j bs') hb),
      ih j hj fun q hq => h q (by simp [hq])]

lemma parseArticle_some {b : List Char} (h : getField "title".toList b ≠ []) :
    parseArticle b = some (articleOfBlock b) := by
  unfold parseArticle articleOfBlock
  simp only [if_neg h]

lemma parseArticle_none {b : List Char} (h : getField "title".toList b = []) :
    parseArticle b = none := by
  unfold parseArticle
  simp only [if_pos h]

lemma filterMap_eq_map_of {α β : Type _} {f : α → Option β} {g : α → β} :
    ∀ l : List α, (∀ x ∈ l, f x = some (g x)) → l.filterMap f = l.map g := by
  intro l h
  induction l with
  | nil => rfl
  | cons x xs ih =>
    rw [List.filterMap_cons, h x (by simp), List.map_cons,
      ih fun y hy => h y (by simp [hy])]

/-- **C3.** For every feed markup input containing well-formed,
non-overlapping `<item>`/`<entry>` blocks — arbitrary opener-free markup
before, between and after them — the parser produces the blocks' records in
block order, dropping exactly those blocks whose extracted title is empty
(silently: `parseRSS` is total); when every block bears a non-empty title it
yields exactly `N = bs.length` article records, in block order. -/
theorem parser_extracts_blocks (pre : List Char)
    (bs : List ((Bool × List Char) × List Char))
    (hpre : cleanSep pre)
    (hclean : ∀ p ∈ bs, cleanBlock p.1.2 ∧ cleanSep p.2) :
    parseRSS (mkFeedJ pre bs) = (bs.map fun p => p.1.2).filterMap parseArticle
  ∧ ((∀ p ∈ bs, getField "title".toList p.1.2 ≠ []) →
      parseRSS (mkFeedJ pre bs) = (bs.map fun p => p.1.2).map articleOfBlock
        ∧ (parseRSS (mkFeedJ pre bs)).length = bs.length)
  ∧ (∀ b, getField "title".toList b = [] → parseArticle b = none) := by
  have h1 : parseRSS (mkFeedJ pre bs)
      = (bs.map fun p => p.1.2).filterMap parseArticle := by
    unfold parseRSS
    rw [scanItems_mkFeedJ bs pre hpre hclean]
  refine ⟨h1, fun ht => ?_, fun b hb => parseArticle_none hb⟩
  have h2 : ((bs.map fun p => p.1.2).filterMap parseArticle : List Article)
      = (bs.map fun p => p.1.2).map articleOfBlock := by
    refine filterMap_eq_map_of _ fun x hx => parseArticle_some ?_
    obtain ⟨p, hp, rfl⟩ := List.mem_map.mp hx
    exact ht p hp
  refine ⟨h1.trans h2, ?_⟩
  rw [h1, h2]
  simp

/-- Witness for C3 at a concrete feed document: XML prologue and channel
header, one RSS item, whitespace, one Atom entry, channel epilogue; both
hypotheses checked by evaluation, conclusion obtained from the theorem. -/
theorem parser_extracts_blocks_witness :
    parseRSS (mkFeedJ wFeedPre wBlocks)
        = (wBlocks.map fun p => p.1.2).map articleOfBlock
      ∧ (parseRSS (mkFeedJ wFeedPre wBlocks)).length = wBlocks.length :=
  (parser_extracts_blocks wFeedPre wBlocks (by decide) (by decide)).2.1 (by decide)

/-! ## CDATA / plain-text description extraction -/

lemma trails_length {s l : List Char} (h : trails s l) : s.length ≤ l.length := by
  obtain ⟨k, hk⟩ := h
  rw [← hk, List.length_drop]
  omega

lemma skipToGt_trails {cs r : List Char} (h : skipToGt cs = some r) : trails r cs := by
  induction cs with
  | nil => simp [skipToGt] at h
  | cons c cs' ih =>
    rw [skipToGt] at h
    split at h
    · simp only [Option.some.injEq] at h
      exact h ▸ trails_cons_of (trails_refl _)
    · exact trails_cons_of (ih h)

lemma eatLitCI_trails {p cs r : List Char} (h : eatLitCI p cs = some r) : trails r cs :=
  ⟨p.length, ((eatLitCI_some_iff.mp h).2).symm⟩

lemma matchTagOpen_trails {tag cs r : List Char} (h : matchTagOpen tag cs = some r) :
    trails r cs := by
  rw [matchTagOpen] at h
  rcases h1 : eatLitCI ('<' :: tag) cs with _ | r1
  · rw [h1] at h
    exact absurd h (by simp)
  · rw [h1] at h
    exact trails_trans (skipToGt_trails h) (eatLitCI_trails h1)

lemma leads_take {p l : List Char} (h : leads p l) (k : Nat) : leads (p.take k) l := by
  unfold leads at h ⊢
  rw [List.length_take]
  conv_rhs => rw [← h]
  rw [List.take_take]

/-- A case-insensitive match of `]]></description>` cannot begin strictly
inside a text free of `]]>`, even with that closer itself appended. -/
lemma eatLitCI_cdataClose_inside {c : List Char}
    (hA : occursCI "]]>".toList c = false) {c₂ : List Char} (hne : c₂ ≠ [])
    (htr : trails c₂ c) :
    eatLitCI cdataCloseDescL (c₂ ++ cdataCloseDescL) = none := by
  cases he : eatLitCI cdataCloseDescL (c₂ ++ cdataCloseDescL) with
  | none => rfl
  | some r =>
    exfalso
    rcases eatLitCI_split he with hld | ⟨hlt, _, hleads⟩
    · have h3 : leads ((lc cdataCloseDescL).take 3) (lc c₂) := leads_take hld 3
      rw [show (lc cdataCloseDescL).take 3 = lc "]]>".toList from by decide] at h3
      exact occursCI_false hA c₂ htr h3
    · have hpos : 0 < c₂.length := List.length_pos.mpr hne
      have hno : ∀ m ∈ List.range cdataCloseDescL.length, 0 < m →
          ¬ leads ((lc cdataCloseDescL).drop m) (lc cdataCloseDescL) := by decide
      exact hno c₂.length (List.mem_range.mpr hlt) hpos hleads

/-- Same for `</description>` against itself, in a text free of it. -/
lemma eatLitCI_descClose_inside {c : List Char}
    (hB : occursCI descCloseL c = false) {c₂ : List Char} (hne : c₂ ≠ [])
    (htr : trails c₂ c) :
    eatLitCI descCloseL (c₂ ++ descCloseL) = none := by
  cases he : eatLitCI descCloseL (c₂ ++ descCloseL) with
  | none => rfl
  | some r =>
    exfalso
    rcases eatLitCI_split he with hld | ⟨hlt, _, hleads⟩
    · exact occursCI_false hB c₂ htr hld
    · have hpos : 0 < c₂.length := List.length_pos.mpr hne
      have hno : ∀ m ∈ List.range descCloseL.length, 0 < m →
          ¬ leads ((lc descCloseL).drop m) (lc descCloseL) := by decide
      exact hno c₂.length (List.mem_range.mpr hlt) hpos hleads

/-- A match of `]]></description>` cannot begin strictly inside a `]]>`-free
text followed by a bare `</description>` (the plain block's closer): the only
self-overlap, at offset 3, would force the text to end in `]]>`. -/
lemma eatLitCI_cdataClose_vs_descClose {c : List Char}
    (hA : occursCI "]]>".toList c = false) {c₂ : List Char} (hne : c₂ ≠ [])
    (htr : trails c₂ c) :
    eatLitCI cdataCloseDescL (c₂ ++ descCloseL) = none := by
  cases he : eatLitCI cdataCloseDescL (c₂ ++ descCloseL) with
  | none => rfl
  | some r =>
    exfalso
    rcases eatLitCI_split he with hld | ⟨hlt, htake, hleads⟩
    · have h3 : leads ((lc cdataCloseDescL).take 3) (lc c₂) := leads_take hld 3
      rw [show (lc cdataCloseDescL).take 3 = lc "]]>".toList from by decide] at h3
      exact occursCI_false hA c₂ htr h3
    · have hpos : 0 < c₂.length := List.length_pos.mpr hne
      by_cases hm : c₂.length = 3
      · have hc2 : lc c₂ = lc "]]>".toList := by
          rw [htake, hm]
          decide
        have h3 : leads (lc "]]>".toList) (lc c₂) := by
          unfold leads
          rw [hc2]
          decide
        exact occursCI_false hA c₂ htr h3
      · have hno : ∀ m ∈ List.range cdataCloseDescL.length, 0 < m → m ≠ 3 →
            ¬ leads ((lc cdataCloseDescL).drop m) (lc descCloseL) := by decide
        exact hno c₂.length (List.mem_range.mpr hlt) hpos hm hleads

/-- The lazy CDATA-closer search over `c ++ ]]></description>` captures
exactly `c` when `c` is free of `]]>`. -/
lemma cdata_capture {c : List Char} (hA : occursCI "]]>".toList c = false) :
    scanFirst (eatLitCI cdataCloseDescL) (c ++ cdataCloseDescL) = some (c, []) := by
  apply scanFirst_prepend (by decide)
  · have h := eatLitCI_append_self cdataCloseDescL []
    rwa [List.append_nil] at h
  · intro c₂ hne htr
    exact eatLitCI_cdataClose_inside hA hne htr

/-- The lazy plain-closer search over `c ++ </description>` captures exactly
`c` when `c` is free of `</description>`. -/
lemma plain_capture {c : List Char} (hB : occursCI descCloseL c = false) :
    scanFirst (eatLitCI descCloseL) (c ++ descCloseL) = some (c, []) := by
  apply scanFirst_prepend (by decide)
  · have h := eatLitCI_append_self descCloseL []
    rwa [List.append_nil] at h
  · intro c₂ hne htr
    exact eatLitCI_descClose_inside hB hne htr

/-- After any `<description…>` opening whose remainder is a final segment of
`c ++ </description>`, the CDATA variant cannot complete: the closing
`]]></description>` occurs nowhere ahead. -/
lemma cdataTail_none {c : List Char} (hA : occursCI "]]>".toList c = false)
    {ao : List Char} (hao : trails ao (c ++ descCloseL)) :
    ((eatLitCI cdataOpenL ao).bind fun a =>
      (scanFirst (eatLitCI cdataCloseDescL) a).map Prod.fst) = none := by
  rcases h2 : eatLitCI cdataOpenL ao with _ | afterCd
  · rfl
  · have hacd : trails afterCd (c ++ descCloseL) :=
      trails_trans (eatLitCI_trails h2) hao
    have hnone : scanFirst (eatLitCI cdataCloseDescL) afterCd = none := by
      apply scanFirst_none_of
      intro s hs hne
      have hsl : trails s (c ++ descCloseL) := trails_trans hs hacd
      rcases trails_append_cases hsl with ⟨c₂, htr2, rfl⟩ | hsd
      · by_cases hc2 : c₂ = []
        · subst hc2
          rw [List.nil_append]
          decide
        · exact eatLitCI_cdataClose_vs_descClose hA hc2 htr2
      · apply eatLitCI_none_of_short
        have := trails_length hsd
        have hd : descCloseL.length = 14 := rfl
        have hc : cdataCloseDescL.length = 17 := rfl
        omega
    show (scanFirst (eatLitCI cdataCloseDescL) afterCd).map Prod.fst = none
    rw [hnone]
    rfl

/-- The CDATA variant fails at every position whose tag-open remainder is a
final segment of `c ++ </description>` — in particular everywhere inside the
plain block. -/
lemma cdataAt_none_suffix {c : List Char} (hA : occursCI "]]>".toList c = false)
    {s : List Char} (hs : trails s (c ++ descCloseL)) :
    cdataAt "description".toList s = none := by
  rcases hmt : matchTagOpen "description".toList s with _ | ao
  · unfold cdataAt
    rw [hmt]
    rfl
  · unfold cdataAt
    rw [hmt]
    show ((eatLitCI cdataOpenL ao).bind fun a =>
      (scanFirst (eatLitCI (cdataCloseT "description".toList)) a).map Prod.fst) = none
    exact cdataTail_none hA (trails_trans (matchTagOpen_trails hmt) hs)

/-- Extraction from the CDATA-encoded block: the captured text is exactly `c`,
post-processed by `cleanup`. -/
lemma getField_blockCdata {c : List Char} (hA : occursCI "]]>".toList c = false) :
    getField "description".toList (blockCdata c) = cleanup c := by
  have h16 : cdataAt "description".toList
      ("<description><![CDATA[".toList ++ (c ++ cdataCloseDescL)) = some c := by
    show (scanFirst (eatLitCI (cdataCloseT "description".toList))
      (c ++ cdataCloseDescL)).map Prod.fst = some c
    rw [show cdataCloseT "description".toList = cdataCloseDescL from rfl,
      cdata_capture hA]
    rfl
  have hscan : scanFirstCap (cdataAt "description".toList) (blockCdata c) = some c :=
    calc scanFirstCap (cdataAt "description".toList) (blockCdata c)
        = scanFirstCap (cdataAt "description".toList)
            ("<description><![CDATA[".toList ++ (c ++ cdataCloseDescL)) := rfl
      _ = some c := scanFirstCap_cons_some h16
  unfold getField
  rw [hscan]

/-- Extraction from the plain-encoded block: the CDATA regex never matches,
and the plain regex captures exactly `c`. -/
lemma getField_blockPlain {c : List Char} (hA : occursCI "]]>".toList c = false)
    (hB : occursCI descCloseL c = false) :
    getField "description".toList (blockPlain c) = cleanup c := by
  have h16n : cdataAt "description".toList
      ("<description>".toList ++ (c ++ descCloseL)) = none := by
    show ((eatLitCI cdataOpenL (c ++ descCloseL)).bind fun a =>
      (scanFirst (eatLitCI (cdataCloseT "description".toList)) a).map Prod.fst) = none
    exact cdataTail_none hA (trails_refl _)
  have hcdnone : scanFirstCap (cdataAt "description".toList) (blockPlain c) = none :=
    calc scanFirstCap (cdataAt "description".toList) (blockPlain c)
        = scanFirstCap (cdataAt "description".toList)
            ("<description>".toList ++ (c ++ descCloseL)) := rfl
      _ = scanFirstCap (cdataAt "description".toList)
            ("description>".toList ++ (c ++ descCloseL)) := scanFirstCap_cons_none h16n
      _ = scanFirstCap (cdataAt "description".toList) (c ++ descCloseL) := rfl
      _ = none := scanFirstCap_none_of fun s hs _ => cdataAt_none_suffix hA hs
  have h16p : plainAt "description".toList
      ("<description>".toList ++ (c ++ descCloseL)) = some c := by
    show (scanFirst (eatLitCI (closeTag "description".toList))
      (c ++ descCloseL)).map Prod.fst = some c
    rw [show closeTag "description".toList = descCloseL from rfl, plain_capture hB]
    rfl
  have hpscan : scanFirstCap (plainAt "description".toList) (blockPlain c) = some c :=
    calc scanFirstCap (plainAt "description".toList) (blockPlain c)
        = scanFirstCap (plainAt "description".toList)
            ("<description>".toList ++ (c ++ descCloseL)) := rfl
      _ = some c := scanFirstCap_cons_some h16p
  unfold getField
  rw [hcdnone, hpscan]

/-- **C6 (counterexample).** The claim "for every description content text the
CDATA-wrapped and plain encodings extract identically" fails: for the content
`a]]></description>b`, the CDATA block extracts `a` (the lazy capture stops at
the embedded `]]></description>`) while the plain block extracts `a]]>` (its
capture stops at the embedded `</description>`). -/
theorem cdata_plain_divergence :
    getField "description".toList (blockCdata "a]]></description>b".toList)
      ≠ getField "description".toList (blockPlain "a]]></description>b".toList) := by
  decide

/-- **C6 (amended).** For every description content text in which neither the
CDATA terminator `]]>` nor the closing tag `</description>` (case-insensitive)
occurs, a title-bearing block wrapping the content in CDATA and one carrying
it as plain tag text yield identical extracted description text. -/
theorem cdata_plain_equiv (c : List Char)
    (hA : occursCI "]]>".toList c = false)
    (hB : occursCI descCloseL c = false) :
    getField "description".toList (blockCdata c)
      = getField "description".toList (blockPlain c) := by
  rw [getField_blockCdata hA, getField_blockPlain hA hB]

/-- Witness for the amended C6 at a concrete content text. -/
theorem cdata_plain_equiv_witness :
    getField "description".toList (blockCdata "Hello <b>World</b>".toList)
      = getField "description".toList (blockPlain "Hello <b>World</b>".toList) :=
  cdata_plain_equiv _ (by decide) (by decide)

/-! ## Deduplication and truncation -/

lemma dedupGo_title_notin : ∀ (seen : List (List Char)) (l : List SItem),
    ∀ a ∈ dedupGo seen l, a.title ∉ seen := by
  intro seen l
  induction l generalizing seen with
  | nil => simp [dedupGo]
  | cons x xs ih =>
    intro a ha
    rw [dedupGo] at ha
    split at ha
    · exact ih seen a ha
    · rcases List.mem_cons.mp ha with rfl | hmem
      · assumption
      · intro hc
        exact (ih _ a hmem) (List.mem_cons_of_mem _ hc)

lemma dedupGo_pairwise : ∀ (seen : List (List Char)) (l : List SItem),
    List.Pairwise (fun x y : SItem => x.title ≠ y.title) (dedupGo seen l) := by
  intro seen l
  induction l generalizing seen with
  | nil => simp [dedupGo]
  | cons x xs ih =>
    rw [dedupGo]
    split
    · exact ih seen
    · refine List.pairwise_cons.mpr ⟨fun b hb hc => ?_, ih _⟩
      exact (dedupGo_title_notin _ _ b hb) (by simp [← hc])

lemma dedupGo_keeps_first : ∀ (seen : List (List Char)) (l₁ : List SItem)
    (a : SItem) (l₂ : List SItem), a.title ∉ seen →
    (∀ b ∈ l₁, b.title ≠ a.title) → a ∈ dedupGo seen (l₁ ++ a :: l₂) := by
  intro seen l₁
  induction l₁ generalizing seen with
  | nil =>
    intro a l₂ hseen _
    rw [List.nil_append, dedupGo, if_neg hseen]
    exact List.mem_cons_self _ _
  | cons b l₁' ih =>
    intro a l₂ hseen hne
    rw [List.cons_append, dedupGo]
    have hba : b.title ≠ a.title := hne b (by simp)
    split
    · exact ih seen a l₂ hseen fun b' hb' => hne b' (by simp [hb'])
    · refine List.mem_cons_of_mem _ ?_
      refine ih _ a l₂ ?_ fun b' hb' => hne b' (by simp [hb'])
      intro hc
      rcases List.mem_cons.mp hc with h | h
      · exact hba h.symm
      · exact hseen h

/-- **C2.** Every published snapshot holds at most 40 items with pairwise
distinct titles; deduplication of the merged collection is by exact
(case-sensitive) title, keeping the first occurrence encountered; the
published items are the first 40 survivors, so 50 unique survivors yield
exactly 40; and every pass that writes the store publishes such a snapshot. -/
theorem snapshot_dedup_truncation (allItems : List SItem) :
    (snapshotItems allItems).length ≤ 40
  ∧ List.Pairwise (fun x y : SItem => x.title ≠ y.title) (snapshotItems allItems)
  ∧ (∀ l₁ a l₂, allItems = l₁ ++ a :: l₂ → (∀ b ∈ l₁, b.title ≠ a.title) →
      a ∈ dedupByTitle allItems)
  ∧ ((dedupByTitle allItems).length = 50 → (snapshotItems allItems).length = 40)
  ∧ (∀ d0 d1 net nowMs parse nowIso d' cache,
      fetchAndCacheRSSModel d0 d1 net nowMs parse nowIso = some d' →
      d'.rssCache = some cache →
      cache.items.length ≤ 40
        ∧ List.Pairwise (fun x y : SItem => x.title ≠ y.title) cache.items) := by
  have hlen : ∀ l : List SItem, (snapshotItems l).length ≤ 40 := by
    intro l
    rw [snapshotItems, List.length_take]
    omega
  have hpw : ∀ l : List SItem,
      List.Pairwise (fun x y : SItem => x.title ≠ y.title) (snapshotItems l) :=
    fun l => List.Pairwise.sublist (List.take_sublist _ _) (dedupGo_pairwise [] l)
  refine ⟨hlen allItems, hpw allItems, ?_, ?_, ?_⟩
  · intro l₁ a l₂ heq hne
    rw [heq]
    exact dedupGo_keeps_first [] l₁ a l₂ (by simp) hne
  · intro h50
    rw [snapshotItems, List.length_take, h50]
    omega
  · intro d0 d1 net nowMs parse nowIso d' cache hrun hcache
    rw [fetchAndCacheRSSModel] at hrun
    split at hrun
    · exact absurd hrun (by simp)
    · simp only [Option.some.injEq] at hrun
      subst hrun
      simp only [Option.some.injEq] at hcache
      subst hcache
      exact ⟨hlen _, hpw _⟩

/-- Witness for C2: fifty distinct-titled survivors truncate to exactly 40,
and the first occurrence of a duplicated title survives deduplication. -/
theorem snapshot_dedup_truncation_witness :
    (snapshotItems wItems50).length = 40
      ∧ (⟨"x".toList, [], [], [], "s1".toList⟩ : SItem) ∈ dedupByTitle wDupItems :=
  ⟨(snapshot_dedup_truncation wItems50).2.2.2.1 (by decide),
   (snapshot_dedup_truncation wDupItems).2.2.1
     [] ⟨"x".toList, [], [], [], "s1".toList⟩
     [wTitledItem "y".toList, ⟨"x".toList, [], [], [], "s2".toList⟩]
     rfl (by simp)⟩

/-! ## Feed locator -/

lemma findFeed_first (site : List Char) : ∀ (l₁ : List (List Char × List Char))
    (e : List Char × List Char) (l₂ : List (List Char × List Char)),
    (∀ e' ∈ l₁, containsLit e'.1 site = false) → containsLit e.1 site = true →
    findFeed site (l₁ ++ e :: l₂) = some e.2 := by
  intro l₁
  induction l₁ with
  | nil =>
    intro e l₂ _ he
    rw [List.nil_append, findFeed, if_pos he]
  | cons p l₁' ih =>
    intro e l₂ hmiss he
    rw [List.cons_append, findFeed, if_neg (by rw [hmiss p (by simp)]; simp)]
    exact ih e l₂ (fun e' h' => hmiss e' (by simp [h'])) he

lemma findFeed_none (site : List Char) : ∀ tbl : List (List Char × List Char),
    (∀ e ∈ tbl, containsLit e.1 site = false) → findFeed site tbl = none := by
  intro tbl
  induction tbl with
  | nil => intro _; rfl
  | cons p tbl' ih =>
    intro h
    rw [findFeed, if_neg (by rw [h p (by simp)]; simp)]
    exact ih fun e h' => h e (by simp [h'])

/-- **C4.** The locator: when some table key occurs (case-sensitively) in the
site, exactly one candidate is emitted — the URL of the first matching key in
table order; otherwise exactly the two heuristic candidates
`<base>/feed/` and `<base>/rss` (base = site with one trailing slash
stripped).  The subdomain/path example of the spec is checked concretely.
The locator is total, so it never fails. -/
theorem feed_locator_spec (site : List Char) :
    (∀ l₁ e l₂, BALTIMORE_RSS_FEEDS = l₁ ++ e :: l₂ →
        (∀ e' ∈ l₁, containsLit e'.1 site = false) →
        containsLit e.1 site = true →
        feedsFor site = [(site, e.2)])
  ∧ ((∀ e ∈ BALTIMORE_RSS_FEEDS, containsLit e.1 site = false) →
        feedsFor site = [(site, stripTrailingSlash site ++ "/feed/".toList),
                         (site, stripTrailingSlash site ++ "/rss".toList)])
  ∧ feedsFor "local.baltimoresun.com/news".toList
      = [("local.baltimoresun.com/news".toList,
          "https://www.baltimoresun.com/arcio/rss/".toList)] := by
  refine ⟨?_, ?_, by decide⟩
  · intro l₁ e l₂ htbl hmiss he
    rw [feedsFor, htbl, findFeed_first site l₁ e l₂ hmiss he]
  · intro hall
    rw [feedsFor, findFeed_none site _ hall]

/-- Witness for C4: a table hit (first matching key wins) and a miss
(two heuristic guesses, trailing slash stripped). -/
theorem feed_locator_spec_witness :
    feedsFor "baltimoresun.com".toList
      = [("baltimoresun.com".toList, "https://www.baltimoresun.com/arcio/rss/".toList)]
  ∧ feedsFor "example.org/".toList
      = [("example.org/".toList, "example.org/feed/".toList),
         ("example.org/".toList, "example.org/rss".toList)] :=
  ⟨(feed_locator_spec "baltimoresun.com".toList).1 []
      ("baltimoresun.com".toList, "https://www.baltimoresun.com/arcio/rss/".toList)
      BALTIMORE_RSS_FEEDS.tail rfl (by simp) (by decide),
   (feed_locator_spec "example.org/".toList).2.1 (by decide)⟩

/-! ## Aggregation pass: configuration guard and frame -/

/-- **C7.** When the configured site list resolves to zero sites, the pass
short-circuits: it performs no write at all (`none`: `writeData` is never
reached, so the stored snapshot — indeed every stored field — is untouched),
and the outcome does not depend on the network in any way, i.e. the
short-circuit happens before any fetch. -/
theorem refresh_no_sites (d0 d1 : QuizData)
    (net net' : List Char → List Char → FeedOutcome)
    (nowMs : Int) (parse : List Char → Option Int) (nowIso : List Char)
    (h : parseSiteList d0.sites = []) :
    fetchAndCacheRSSModel d0 d1 net nowMs parse nowIso = none
  ∧ fetchAndCacheRSSModel d0 d1 net nowMs parse nowIso
      = fetchAndCacheRSSModel d0 d1 net' nowMs parse nowIso := by
  constructor
  · simp [fetchAndCacheRSSModel, h]
  · simp [fetchAndCacheRSSModel, h]

/-- Witness for C7: a sites string of pure whitespace and newlines trims and
filters to zero sites, and the pass writes nothing. -/
theorem refresh_no_sites_witness :
    fetchAndCacheRSSModel ⟨some "  \n ".toList, some wCache, none, none, []⟩
      wData1 wNetFail 0 (fun _ => none) [] = none :=
  (refresh_no_sites ⟨some "  \n ".toList, some wCache, none, none, []⟩
    wData1 wNetFail wNetFail 0 (fun _ => none) [] (by decide)).1

/-- **C10.** A completed pass writes only `rssCache`: every other field of the
store as re-read immediately before the write (`const freshData = readData()`)
is preserved unchanged in the written store. -/
theorem refresh_frame (d0 d1 : QuizData)
    (net : List Char → List Char → FeedOutcome)
    (nowMs : Int) (parse : List Char → Option Int) (nowIso : List Char)
    (d' : QuizData)
    (h : fetchAndCacheRSSModel d0 d1 net nowMs parse nowIso = some d') :
    d'.sites = d1.sites ∧ d'.posts = d1.posts ∧ d'.messages = d1.messages
      ∧ d'.other = d1.other := by
  simp only [fetchAndCacheRSSModel] at h
  split at h
  · exact absurd h (by simp)
  · simp only [Option.some.injEq] at h
    subst h
    exact ⟨rfl, rfl, rfl, rfl⟩

/-- Witness for C10: a concrete pass over one unknown site whose two candidate
fetches fail; the written store keeps `wData1`'s sites, posts, messages and
extra keys verbatim. -/
theorem refresh_frame_witness :
    wDataOut.sites = wData1.sites ∧ wDataOut.posts = wData1.posts
      ∧ wDataOut.messages = wData1.messages ∧ wDataOut.other = wData1.other :=
  refresh_frame wData0 wData1 wNetFail 0 (fun _ => none)
    "2026-01-01T00:00:00.000Z".toList wDataOut (by decide)

/-! ## Cache read path -/

/-- **C9.** The cache read (`GET /api/rss`) is a total synchronous function of
the store: it returns the stored snapshot when present and the default-empty
snapshot `{ items: [], fetchedAt: null, errors: [] }` otherwise, and leaves
the store exactly as it was (the handler calls no fetch and no write). -/
theorem api_rss_read (d : QuizData) :
    (getCachedArticles d).2 = d
  ∧ (∀ c, d.rssCache = some c → (getCachedArticles d).1 = c)
  ∧ (d.rssCache = none → (getCachedArticles d).1 = emptyCache) := by
  refine ⟨rfl, ?_, ?_⟩
  · intro c hc
    simp [getCachedArticles, hc]
  · intro hc
    simp [getCachedArticles, hc]

/-- Witness for C9: the read of an empty store yields the default snapshot;
the read of a populated store yields its snapshot. -/
theorem api_rss_read_witness :
    (getCachedArticles ⟨none, none, none, none, []⟩).1 = emptyCache
  ∧ (getCachedArticles ⟨none, some wCache, none, none, []⟩).1 = wCache :=
  ⟨(api_rss_read ⟨none, none, none, none, []⟩).2.2 rfl,
   (api_rss_read ⟨none, some wCache, none, none, []⟩).2.1 wCache rfl⟩

/-! ## Transport: redirect following -/

/-- **C8 (counterexample).** The claim quantifies over every 3xx response
"that carries a Location header".  A 301 response carrying an *empty*
`Location` header falsifies it: the guard `res.headers.location` is a JS
truthiness test, `''` is falsy, so `fetchUrl` returns the redirect response's
own body — which differs from the result of fetching the Location target. -/
theorem fetch_redirect_divergence :
    (300 ≤ (wRedirNet "http://u".toList).statusCode
      ∧ (wRedirNet "http://u".toList).statusCode < 400
      ∧ (wRedirNet "http://u".toList).location = some [])
  ∧ fetchUrlFuel wRedirNet 5 "http://u".toList = some "own-body".toList
  ∧ fetchUrlFuel wRedirNet 4 [] = some "target-body".toList
  ∧ ("own-body".toList : List Char) ≠ "target-body".toList := by
  decide

/-- **C8 (amended).** For every response with 3xx status and a *non-empty*
Location header, the transport returns the result of recursively fetching the
Location target (fuel counts recursion depth; the recursion is uncapped, as
the loop network shows: no fuel ever suffices); a 3xx response with an absent
or empty Location header, or a non-3xx response, is returned as-is. -/
theorem fetch_redirect_spec (net : List Char → HttpResponse)
    (url l : List Char) (n : Nat) :
    (300 ≤ (net url).statusCode → (net url).statusCode < 400 →
      (net url).location = some l → l ≠ [] →
      fetchUrlFuel net (n + 1) url = fetchUrlFuel net n l)
  ∧ (300 ≤ (net url).statusCode → (net url).statusCode < 400 →
      ((net url).location = none ∨ (net url).location = some []) →
      fetchUrlFuel net (n + 1) url = some (net url).body)
  ∧ (¬ (300 ≤ (net url).statusCode ∧ (net url).statusCode < 400) →
      fetchUrlFuel net (n + 1) url = some (net url).body)
  ∧ (∀ m, fetchUrlFuel wLoopNet m "loop".toList = none) := by
  refine ⟨?_, ?_, ?_, ?_⟩
  · intro h1 h2 hloc hne
    have hrc : redirectCond (net url) = true := by
      simp [redirectCond, h1, h2, hloc, hne]
    simp only [fetchUrlFuel, hrc, if_true, hloc, Option.getD_some]
  · intro h1 h2 hloc
    have hrc : redirectCond (net url) = false := by
      rcases hloc with hloc | hloc <;> simp [redirectCond, hloc]
    simp only [fetchUrlFuel, hrc, Bool.false_eq_true, if_false]
  · intro h12
    have hrc : redirectCond (net url) = false := by
      rcases not_and_or.mp h12 with ha | hb
      · simp [redirectCond, decide_eq_false ha]
      · simp [redirectCond, decide_eq_false hb]
    simp only [fetchUrlFuel, hrc, Bool.false_eq_true, if_false]
  · intro m
    induction m with
    | zero => rfl
    | succ k ih =>
      simp only [fetchUrlFuel, wLoopNet]
      rw [if_pos (by decide)]
      exact ih

/-- Witness for the amended C8: on the two-hop network, fetching `a` with
fuel 2 equals fetching its redirect target `b` with fuel 1, which returns the
final 200 body. -/
theorem fetch_redirect_spec_witness :
    fetchUrlFuel wChainNet 2 "a".toList = fetchUrlFuel wChainNet 1 "b".toList
  ∧ fetchUrlFuel wChainNet 1 "b".toList = some "final".toList :=
  ⟨(fetch_redirect_spec wChainNet "a".toList "b".toList 1).1
      (by decide) (by decide) (by decide) (by decide),
   (fetch_redirect_spec wChainNet "b".toList [] 0).2.2.1 (by decide)⟩

/-! ## Recency filter -/

/-- **C1 (code evaluation).** The recency filter at `now = 100 h`: the empty
date is included; a parseable date 25 hours old is included and one 27 hours
old is excluded; but a non-empty *unparseable* date is **excluded** — in JS,
`new Date(s)` never throws on a string, it yields an Invalid Date whose
`getTime()` is `NaN`, and `Date.now() - NaN < 26h` evaluates `NaN < 26h`,
which is `false`.  The `catch(e) { return true }` branch is unreachable,
so the fail-open intent of the code (and the spec) is not what the code
does on unparseable dates. -/
theorem isRecent_eval :
    isRecent (100 * 3600000) wParse25 "definitely-not-a-date".toList = false
  ∧ isRecent (100 * 3600000) wParse25 [] = true
  ∧ isRecent (100 * 3600000) wParse25 "25-hours-ago".toList = true
  ∧ isRecent (100 * 3600000) wParse25 "27-hours-ago".toList = false := by
  decide

/-! ## Description field extraction -/

/-- **C5.** For every parsed article, the description equals the first
non-empty extraction among `description`, then `summary`, then `content`
(the JS `||` chain), truncated to 500 characters at push time; its stored
length never exceeds 500. -/
theorem description_extraction (block : List Char) (a : Article)
    (h : parseArticle block = some a) :
    (getField "description".toList block ≠ [] →
        a.description = (getField "description".toList block).take 500)
  ∧ (getField "description".toList block = [] →
      getField "summary".toList block ≠ [] →
        a.description = (getField "summary".toList block).take 500)
  ∧ (getField "description".toList block = [] →
      getField "summary".toList block = [] →
        a.description = (getField "content".toList block).take 500)
  ∧ a.description.length ≤ 500 := by
  simp only [parseArticle] at h
  split at h
  · exact absurd h (by simp)
  · simp only [Option.some.injEq] at h
    subst h
    refine ⟨?_, ?_, ?_, ?_⟩
    · intro h1
      rw [jsOr, if_neg h1]
    · intro h1 h2
      rw [jsOr, if_pos h1, jsOr, if_neg h2]
    · intro h1 h2
      rw [jsOr, if_pos h1, jsOr, if_pos h2]
    · simp only [List.length_take]
      omega

/-- Witness for C5 at a block with an empty `description` and a non-empty
`summary`: the summary wins, and the stored length is within bounds. -/
theorem description_extraction_witness :
    (articleOfBlock "<title>t</title><summary>S</summary>".toList).description
        = (getField "summary".toList "<title>t</title><summary>S</summary>".toList).take 500
  ∧ (articleOfBlock "<title>t</title><summary>S</summary>".toList).description.length ≤ 500 :=
  ⟨(description_extraction "<title>t</title><summary>S</summary>".toList _
      (by decide)).2.1 (by decide) (by decide),
   (description_extraction "<title>t</title><summary>S</summary>".toList _
      (by decide)).2.2.2⟩

end DailyDispatch
